import Mathlib

/-!
Verification of the bounded lock-free MPMC queue in
`src/lockfreekit/mpmc_queue.hpp` (`lockfreekit::MPMCQueue`).

The C++ class is shallowly embedded as a Lean state machine.  A `Queue α`
holds the fields of the C++ object: `capacity_`, the slot buffer (one
`sequence` counter plus one `value` cell per slot), and the `head_`/`tail_`
counters.  `size_t` counters are modelled as unbounded naturals — the spec
itself treats them as "logically unbounded (they wrap only via modular index
derivation, not via counter overflow in practice)" — and the C++
`ptrdiff_t diff = (ptrdiff_t)seq - (ptrdiff_t)pos` is modelled as the exact
integer difference in `Int`.

The retry loops of `enqueue`/`dequeue` are modelled with explicit fuel:
`none` means the loop has not terminated within the given fuel.  Single
threaded, the compare-and-swap on `tail_`/`head_` is modelled as succeeding
exactly when the counter equals the expected value (no spurious failure,
which is a concurrency artifact), and a failed CAS continues the loop with
the observed counter value, exactly as `compare_exchange_weak` updates its
`expected` argument.
-/

namespace LockFreeKit

/-- One buffer slot: `struct Slot { std::atomic<size_t> sequence; T value; }`. -/
structure Slot (α : Type) where
  sequence : Nat
  value : α
deriving DecidableEq, Repr

instance [Inhabited α] : Inhabited (Slot α) := ⟨⟨0, default⟩⟩

/-- The queue state: the fields of `MPMCQueue` that the algorithm reads and
writes (`capacity_`, the slot buffer, `head_`, `tail_`).  Padding and
cache-line alignment are performance-only and carry no state. -/
structure Queue (α : Type) where
  capacity : Nat
  slots : List (Slot α)
  head : Nat
  tail : Nat
deriving DecidableEq, Repr

/-- Errors raised at construction. -/
inductive QueueError where
  | InvalidCapacity
deriving DecidableEq, Repr

/-- The dynamic-capacity constructor: allocates `capacity` value-initialized
slots, throws `std::invalid_argument` ("InvalidCapacity") when
`capacity_ < 1`, otherwise stores `i` into slot `i`'s sequence and leaves
`head_ = tail_ = 0`. -/
def mkQueue (α : Type) [Inhabited α] (capacity : Nat) : Except QueueError (Queue α) :=
  if capacity < 1 then
    Except.error QueueError.InvalidCapacity
  else
    Except.ok
      { capacity := capacity
        slots := (List.range capacity).map fun i => ⟨i, default⟩
        head := 0
        tail := 0 }

/-- The slot-indexing of `buffer_at` on the dynamic path: `pos % capacity_`. -/
def dynIndex (cap pos : Nat) : Nat := pos % cap

/-- The slot-indexing of `buffer_at` on the static path: when
`(static_capacity & (static_capacity - 1)) == 0` (power of two) it uses the
bitmask `pos & (static_capacity - 1)`, otherwise `pos % static_capacity`. -/
def buffer_index (cap pos : Nat) : Nat :=
  if Nat.land cap (cap - 1) = 0 then Nat.land pos (cap - 1) else pos % cap

/-- The body of `enqueue`'s `for (;;)` loop, with fuel.  `pos` is the local
candidate position; `diff = (ptrdiff_t)seq - (ptrdiff_t)pos`.
`diff == 0`: CAS `tail_` from `pos` to `pos + 1`; on success write the value
and store `pos + 1` into the slot's sequence, returning `true`; on CAS
failure continue with the observed `tail_`.  `diff < 0`: return `false`
(full).  `diff > 0`: reload `tail_` and continue. -/
def enqueueGo [Inhabited α] (v : α) (q : Queue α) : Nat → Nat → Option (Bool × Queue α)
  | _, 0 => none
  | pos, fuel + 1 =>
    let slot := q.slots.getD (pos % q.capacity) default
    let diff : Int := (slot.sequence : Int) - (pos : Int)
    if diff = 0 then
      if q.tail = pos then
        some (true,
          { q with
            tail := pos + 1
            slots := q.slots.set (pos % q.capacity) ⟨pos + 1, v⟩ })
      else enqueueGo v q q.tail fuel
    else if diff < 0 then
      some (false, q)
    else
      enqueueGo v q q.tail fuel

/-- `bool enqueue(const T& value)`: start from `pos = tail_.load()`. -/
def enqueue [Inhabited α] (q : Queue α) (v : α) (fuel : Nat) : Option (Bool × Queue α) :=
  enqueueGo v q q.tail fuel

/-- The body of `dequeue`'s loop, with fuel.
`diff = (ptrdiff_t)seq - (ptrdiff_t)(pos + 1)`.  `diff == 0`: CAS `head_`
from `pos` to `pos + 1`; on success move the value out and store
`pos + capacity()` into the slot's sequence.  `diff < 0`: return
`std::nullopt` (empty).  `diff > 0`: reload `head_` and continue.
Moving out of an `int`-like value leaves the slot's value cell unchanged,
which is how the move is modelled. -/
def dequeueGo [Inhabited α] (q : Queue α) : Nat → Nat → Option (Option α × Queue α)
  | _, 0 => none
  | pos, fuel + 1 =>
    let slot := q.slots.getD (pos % q.capacity) default
    let diff : Int := (slot.sequence : Int) - ((pos : Int) + 1)
    if diff = 0 then
      if q.head = pos then
        some (some slot.value,
          { q with
            head := pos + 1
            slots := q.slots.set (pos % q.capacity) ⟨pos + q.capacity, slot.value⟩ })
      else dequeueGo q q.head fuel
    else if diff < 0 then
      some (none, q)
    else
      dequeueGo q q.head fuel

/-- `std::optional<T> dequeue()`: start from `pos = head_.load()`. -/
def dequeue [Inhabited α] (q : Queue α) (fuel : Nat) : Option (Option α × Queue α) :=
  dequeueGo q q.head fuel

/-- `size_t approx_size()`: `tail_ - head_` (unsigned). -/
def approx_size (q : Queue α) : Nat := q.tail - q.head

/-- The slot-rewriting loop of `thread_unsafe_clear`: for `i` in
`[0, capacity)` store `i` into slot `i`'s sequence, touching nothing else.
`idx` is the array position of the head of the remaining list. -/
def clearSlotsGo (cap : Nat) : Nat → List (Slot α) → List (Slot α)
  | _, [] => []
  | idx, s :: rest =>
    (if idx < cap then ⟨idx, s.value⟩ else s) :: clearSlotsGo cap (idx + 1) rest

/-- `void thread_unsafe_clear()`: store 0 into `head_` and `tail_`, then
store `i` into slot `i`'s sequence for every `i < capacity()`. -/
def thread_unsafe_clear (q : Queue α) : Queue α :=
  { q with head := 0, tail := 0, slots := clearSlotsGo q.capacity 0 q.slots }

/-- States reachable from a successful construction by completed `enqueue`,
`dequeue` and `thread_unsafe_clear` calls (single-threaded: each call runs
to completion before the next begins). -/
inductive Reachable [Inhabited α] : Queue α → Prop where
  | init (cap : Nat) (q : Queue α) :
      mkQueue α cap = Except.ok q → Reachable q
  | enq (q : Queue α) (v : α) (fuel : Nat) (b : Bool) (q' : Queue α) :
      Reachable q → enqueue q v fuel = some (b, q') → Reachable q'
  | deq (q : Queue α) (fuel : Nat) (r : Option α) (q' : Queue α) :
      Reachable q → dequeue q fuel = some (r, q') → Reachable q'
  | clear (q : Queue α) :
      Reachable q → Reachable (thread_unsafe_clear q)

/-! ### List access helpers -/

theorem getD_set_self (l : List β) (j : Nat) (a d : β) (h : j < l.length) :
    (l.set j a).getD j d = a := by
  simp [List.getD_eq_getElem?_getD, List.getElem?_set_self h]

theorem getD_set_ne (l : List β) (i j : Nat) (a d : β) (h : i ≠ j) :
    (l.set j a).getD i d = l.getD i d := by
  simp [List.getD_eq_getElem?_getD, List.getElem?_set_ne (Ne.symm h)]

theorem fresh_getD [Inhabited α] (cap i : Nat) (h : i < cap) :
    (((List.range cap).map fun j => (⟨j, default⟩ : Slot α)).getD i default) =
      ⟨i, default⟩ := by
  simp [List.getD_eq_getElem?_getD, List.getElem?_range h]

/-- Two positions in the same window `[h, h + cap)` with the same residue are
equal: each slot index is hit exactly once per window of `cap` consecutive
candidate positions. -/
theorem mod_window_inj (cap h a b : Nat)
    (ha1 : h ≤ a) (ha2 : a < h + cap) (hb1 : h ≤ b) (hb2 : b < h + cap)
    (hmod : a % cap = b % cap) : a = b := by
  rcases Nat.le_total a b with hle | hle
  · have hd : cap ∣ b - a := (Nat.modEq_iff_dvd' hle).1 hmod
    have h0 : b - a = 0 := Nat.eq_zero_of_dvd_of_lt hd (by omega)
    omega
  · have hd : cap ∣ a - b := (Nat.modEq_iff_dvd' hle).1 hmod.symm
    have h0 : a - b = 0 := Nat.eq_zero_of_dvd_of_lt hd (by omega)
    omega

/-! ### Characterization of a completed enqueue / dequeue call

Single-threaded, every candidate position the loop ever examines equals the
current `tail_` (resp. `head_`): the initial load, every CAS-failure update
and every reload all read the same counter.  So a completed call is decided
by the sequence of the slot at `tail % capacity` (resp. `head % capacity`).
-/

theorem enqueue_some [Inhabited α] (q : Queue α) (v : α) (fuel : Nat) (b : Bool)
    (q' : Queue α) (h : enqueue q v fuel = some (b, q')) :
    (b = true ∧ (q.slots.getD (q.tail % q.capacity) default).sequence = q.tail ∧
      q' = { q with
             tail := q.tail + 1
             slots := q.slots.set (q.tail % q.capacity) ⟨q.tail + 1, v⟩ }) ∨
    (b = false ∧ (q.slots.getD (q.tail % q.capacity) default).sequence < q.tail ∧
      q' = q) := by
  induction fuel with
  | zero => simp [enqueue, enqueueGo] at h
  | succ n ih =>
    rw [enqueue] at h
    rw [enqueueGo] at h
    simp only at h
    split at h
    next hdiff =>
      simp only [if_true] at h
      simp only [Option.some.injEq, Prod.mk.injEq] at h
      obtain ⟨hb, hq⟩ := h
      exact Or.inl ⟨hb.symm, by omega, hq.symm⟩
    next hdiff =>
      split at h
      next hlt =>
        simp only [Option.some.injEq, Prod.mk.injEq] at h
        obtain ⟨hb, hq⟩ := h
        exact Or.inr ⟨hb.symm, by omega, hq.symm⟩
      next hge =>
        exact ih h

theorem dequeue_some [Inhabited α] (q : Queue α) (fuel : Nat) (r : Option α)
    (q' : Queue α) (h : dequeue q fuel = some (r, q')) :
    (r = some (q.slots.getD (q.head % q.capacity) default).value ∧
      (q.slots.getD (q.head % q.capacity) default).sequence = q.head + 1 ∧
      q' = { q with
             head := q.head + 1
             slots := q.slots.set (q.head % q.capacity)
               ⟨q.head + q.capacity,
                (q.slots.getD (q.head % q.capacity) default).value⟩ }) ∨
    (r = none ∧
      (q.slots.getD (q.head % q.capacity) default).sequence < q.head + 1 ∧
      q' = q) := by
  induction fuel with
  | zero => simp [dequeue, dequeueGo] at h
  | succ n ih =>
    rw [dequeue] at h
    rw [dequeueGo] at h
    simp only at h
    split at h
    next hdiff =>
      simp only [if_true] at h
      simp only [Option.some.injEq, Prod.mk.injEq] at h
      obtain ⟨hr, hq⟩ := h
      exact Or.inl ⟨hr.symm, by omega, hq.symm⟩
    next hdiff =>
      split at h
      next hlt =>
        simp only [Option.some.injEq, Prod.mk.injEq] at h
        obtain ⟨hr, hq⟩ := h
        exact Or.inr ⟨hr.symm, by omega, hq.symm⟩
      next hge =>
        exact ih h

/-! ### The clear loop -/

theorem clearSlotsGo_length (cap idx : Nat) (l : List (Slot α)) :
    (clearSlotsGo cap idx l).length = l.length := by
  induction l generalizing idx with
  | nil => rfl
  | cons s rest ih => simp [clearSlotsGo, ih]

theorem clearSlotsGo_getD_value [Inhabited α] (cap idx j : Nat) (l : List (Slot α)) :
    ((clearSlotsGo cap idx l).getD j default).value = (l.getD j default).value := by
  induction l generalizing idx j with
  | nil => rfl
  | cons s rest ih =>
    cases j with
    | zero =>
      rw [clearSlotsGo]
      rw [List.getD_cons_zero, List.getD_cons_zero]
      split <;> rfl
    | succ j =>
      rw [clearSlotsGo]
      rw [List.getD_cons_succ, List.getD_cons_succ]
      exact ih (idx + 1) j

theorem clearSlotsGo_getD_sequence [Inhabited α] (cap idx j : Nat) (l : List (Slot α))
    (hj : j < l.length) (hlt : idx + j < cap) :
    ((clearSlotsGo cap idx l).getD j default).sequence = idx + j := by
  induction l generalizing idx j with
  | nil => simp at hj
  | cons s rest ih =>
    cases j with
    | zero =>
      rw [clearSlotsGo]
      rw [List.getD_cons_zero]
      rw [if_pos (by omega)]
      simp
    | succ j =>
      rw [clearSlotsGo]
      rw [List.getD_cons_succ]
      have := ih (idx + 1) j (by simpa using hj) (by omega)
      omega

/-! ### Shape invariant -/

/-- The buffer allocated at construction always has exactly `capacity`
slots, and the capacity is at least one. -/
def WF (q : Queue α) : Prop := q.slots.length = q.capacity ∧ 1 ≤ q.capacity

theorem wf_reachable [Inhabited α] (q : Queue α) (h : Reachable q) : WF q := by
  induction h with
  | init cap q h0 =>
    rw [mkQueue] at h0
    split at h0
    · exact absurd h0 (by simp)
    · simp only [Except.ok.injEq] at h0
      subst h0
      constructor
      · simp
      · simp only
        omega
  | enq q v fuel b q' hr he ih =>
    rcases enqueue_some q v fuel b q' he with ⟨_, _, hq⟩ | ⟨_, _, hq⟩ <;> subst hq
    · exact ⟨by simpa using ih.1, ih.2⟩
    · exact ih
  | deq q fuel r q' hr hd ih =>
    rcases dequeue_some q fuel r q' hd with ⟨_, _, hq⟩ | ⟨_, _, hq⟩ <;> subst hq
    · exact ⟨by simpa using ih.1, ih.2⟩
    · exact ih
  | clear q hr ih =>
    exact ⟨by simpa [thread_unsafe_clear, clearSlotsGo_length] using ih.1, ih.2⟩

/-! ### The occupancy invariant (capacities at least 2)

Sequentially, each candidate position `p` in the current head window
`[head, head + capacity)` owns slot `p % capacity`, whose sequence is
`p + 1` when that position has already been filled (`p < tail`) and `p`
when it is still free.  This pins `tail - head` into `[0, capacity]` and
makes enqueue fail exactly on a full queue.  It requires `capacity ≥ 2`:
with capacity 1 the full-slot sequence `p + 1` collides with the next
window's free-slot sequence, and the invariant (and the queue) break.
-/

def SeqInv [Inhabited α] (q : Queue α) : Prop :=
  ∀ p, q.head ≤ p → p < q.head + q.capacity →
    (q.slots.getD (p % q.capacity) default).sequence =
      if p < q.tail then p + 1 else p

def Inv [Inhabited α] (q : Queue α) : Prop :=
  q.slots.length = q.capacity ∧ 2 ≤ q.capacity ∧ q.head ≤ q.tail ∧
    q.tail ≤ q.head + q.capacity ∧ SeqInv q

theorem inv_init [Inhabited α] (cap : Nat) (q : Queue α)
    (h : mkQueue α cap = Except.ok q) (hcap : 2 ≤ q.capacity) : Inv q := by
  rw [mkQueue] at h
  split at h
  · exact absurd h (by simp)
  · simp only [Except.ok.injEq] at h
    subst h
    simp only at hcap
    refine ⟨by simp, hcap, Nat.le_refl 0, Nat.zero_le _, ?_⟩
    intro p hp1 hp2
    simp only at hp1 hp2 ⊢
    rw [Nat.mod_eq_of_lt (by omega)]
    rw [fresh_getD cap p (by omega)]
    rw [if_neg (by omega)]

theorem inv_enqueue [Inhabited α] (q q' : Queue α) (v : α) (fuel : Nat) (b : Bool)
    (hinv : Inv q) (h : enqueue q v fuel = some (b, q')) : Inv q' := by
  obtain ⟨hlen, hcap, hht, htb, hseq⟩ := hinv
  rcases enqueue_some q v fuel b q' h with ⟨_, hs, hq⟩ | ⟨_, _, hq⟩
  · -- Successful enqueue: the claimed slot must be the free slot of position
    -- `tail`, which exists only when the queue is not full.
    have hnotfull : q.tail < q.head + q.capacity := by
      by_contra hfull
      have he : q.tail = q.head + q.capacity := by omega
      have hw := hseq q.head (Nat.le_refl _) (by omega)
      rw [if_pos (by omega)] at hw
      have hmod : q.tail % q.capacity = q.head % q.capacity := by
        rw [he, Nat.add_mod_right]
      rw [hmod, hw] at hs
      omega
    subst hq
    refine ⟨by simpa using hlen, hcap, by simp only; omega, by simp only; omega, ?_⟩
    intro p hp1 hp2
    simp only at hp1 hp2 ⊢
    by_cases hp : p = q.tail
    · subst hp
      rw [getD_set_self _ _ _ _ (by rw [hlen]; exact Nat.mod_lt _ (by omega))]
      rw [if_pos (by omega)]
    · have hne : p % q.capacity ≠ q.tail % q.capacity := by
        intro hcontra
        exact hp (mod_window_inj q.capacity q.head p q.tail hp1 hp2 hht hnotfull hcontra)
      rw [getD_set_ne _ _ _ _ _ hne]
      rw [hseq p hp1 hp2]
      split <;> split <;> omega
  · subst hq
    exact ⟨hlen, hcap, hht, htb, hseq⟩

theorem inv_dequeue [Inhabited α] (q q' : Queue α) (fuel : Nat) (r : Option α)
    (hinv : Inv q) (h : dequeue q fuel = some (r, q')) : Inv q' := by
  obtain ⟨hlen, hcap, hht, htb, hseq⟩ := hinv
  rcases dequeue_some q fuel r q' h with ⟨_, hs, hq⟩ | ⟨_, _, hq⟩
  · -- Successful dequeue: position `head` must hold a published value,
    -- which exists only when the queue is not empty.
    have hnotempty : q.head < q.tail := by
      by_contra hempty
      have he : q.head = q.tail := by omega
      have hw := hseq q.head (Nat.le_refl _) (by omega)
      rw [if_neg (by omega)] at hw
      rw [hw] at hs
      omega
    subst hq
    refine ⟨by simpa using hlen, hcap, by simp only; omega, by simp only; omega, ?_⟩
    intro p hp1 hp2
    simp only at hp1 hp2 ⊢
    by_cases hp : p = q.head + q.capacity
    · subst hp
      have hmod : (q.head + q.capacity) % q.capacity = q.head % q.capacity :=
        Nat.add_mod_right _ _
      rw [hmod]
      rw [getD_set_self _ _ _ _ (by rw [hlen]; exact Nat.mod_lt _ (by omega))]
      rw [if_neg (by omega)]
    · have hne : p % q.capacity ≠ q.head % q.capacity := by
        intro hcontra
        have : p = q.head :=
          mod_window_inj q.capacity q.head p q.head (by omega) (by omega)
            (Nat.le_refl _) (by omega) hcontra
        omega
      rw [getD_set_ne _ _ _ _ _ hne]
      exact hseq p (by omega) (by omega)
  · subst hq
    exact ⟨hlen, hcap, hht, htb, hseq⟩

theorem inv_clear [Inhabited α] (q : Queue α)
    (hlen : q.slots.length = q.capacity) (hcap : 2 ≤ q.capacity) :
    Inv (thread_unsafe_clear q) := by
  refine ⟨by simpa [thread_unsafe_clear, clearSlotsGo_length] using hlen,
    hcap, Nat.le_refl 0, Nat.zero_le _, ?_⟩
  intro p hp1 hp2
  simp only [thread_unsafe_clear] at hp1 hp2 ⊢
  rw [Nat.mod_eq_of_lt (by omega)]
  have := clearSlotsGo_getD_sequence q.capacity 0 p q.slots (by omega) (by omega)
  rw [this]
  rw [if_neg (by omega)]
  omega

theorem inv_reachable [Inhabited α] (q : Queue α) (h : Reachable q) :
    2 ≤ q.capacity → Inv q := by
  induction h with
  | init cap q h0 => exact inv_init cap q h0
  | enq q v fuel b q' hr he ih =>
    intro hcap
    have hc : q'.capacity = q.capacity := by
      rcases enqueue_some q v fuel b q' he with ⟨_, _, hq⟩ | ⟨_, _, hq⟩ <;>
        subst hq <;> rfl
    exact inv_enqueue q q' v fuel b (ih (by omega)) he
  | deq q fuel r q' hr hd ih =>
    intro hcap
    have hc : q'.capacity = q.capacity := by
      rcases dequeue_some q fuel r q' hd with ⟨_, _, hq⟩ | ⟨_, _, hq⟩ <;>
        subst hq <;> rfl
    exact inv_dequeue q q' fuel r (ih (by omega)) hd
  | clear q hr ih =>
    intro hcap
    have hcap' : 2 ≤ q.capacity := by simpa [thread_unsafe_clear] using hcap
    exact inv_clear q (wf_reachable q hr).1 hcap'

/-! ### The generation invariant (all capacities)

Every write to the sequence of slot `i` stores either `pos + 1` (producer)
or `pos + capacity` (consumer) for some position `pos` with
`pos % capacity = i`, and construction / reset store `i` itself.  Hence the
sequence of slot `i` is always `i + k·capacity` (free at generation `k`) or
`i + k·capacity + 1` (full at generation `k`). -/

def GenInv [Inhabited α] (q : Queue α) : Prop :=
  ∀ i, i < q.capacity → ∃ k,
    (q.slots.getD i default).sequence = i + k * q.capacity ∨
    (q.slots.getD i default).sequence = i + k * q.capacity + 1

theorem genInv_reachable [Inhabited α] (q : Queue α) (h : Reachable q) : GenInv q := by
  induction h with
  | init cap q h0 =>
    rw [mkQueue] at h0
    split at h0
    · exact absurd h0 (by simp)
    · simp only [Except.ok.injEq] at h0
      subst h0
      intro i hi
      simp only at hi
      rw [fresh_getD cap i hi]
      exact ⟨0, Or.inl (by simp)⟩
  | enq q v fuel b q' hr he ih =>
    have hwf := wf_reachable q hr
    rcases enqueue_some q v fuel b q' he with ⟨_, _, hq⟩ | ⟨_, _, hq⟩
    · subst hq
      intro i hi
      simp only at hi ⊢
      by_cases hidx : i = q.tail % q.capacity
      · subst hidx
        rw [getD_set_self _ _ _ _ (by rw [hwf.1]; exact Nat.mod_lt _ (by omega))]
        refine ⟨q.tail / q.capacity, Or.inr ?_⟩
        have h1 := Nat.mod_add_div q.tail q.capacity
        rw [Nat.mul_comm q.capacity (q.tail / q.capacity)] at h1
        simp only
        omega
      · rw [getD_set_ne _ _ _ _ _ hidx]
        exact ih i hi
    · subst hq
      exact ih
  | deq q fuel r q' hr hd ih =>
    have hwf := wf_reachable q hr
    rcases dequeue_some q fuel r q' hd with ⟨_, _, hq⟩ | ⟨_, _, hq⟩
    · subst hq
      intro i hi
      simp only at hi ⊢
      by_cases hidx : i = q.head % q.capacity
      · subst hidx
        rw [getD_set_self _ _ _ _ (by rw [hwf.1]; exact Nat.mod_lt _ (by omega))]
        refine ⟨q.head / q.capacity + 1, Or.inl ?_⟩
        have h1 := Nat.mod_add_div q.head q.capacity
        rw [Nat.mul_comm q.capacity (q.head / q.capacity)] at h1
        simp only
        rw [Nat.succ_mul]
        omega
      · rw [getD_set_ne _ _ _ _ _ hidx]
        exact ih i hi
    · subst hq
      exact ih
  | clear q hr ih =>
    obtain ⟨hlen, hpos⟩ := wf_reachable q hr
    intro i hi
    simp only [thread_unsafe_clear] at hi ⊢
    rw [clearSlotsGo_getD_sequence q.capacity 0 i q.slots (by omega) (by omega)]
    exact ⟨0, Or.inl (by omega)⟩

/-! ### Claims -/

/-- C4: construction with requested capacity < 1 fails with `InvalidCapacity`
and produces no queue object; construction with capacity ≥ 1 succeeds and
yields `head = tail = 0` with slot `i`'s sequence equal to `i` for every
array position `i < capacity`. -/
theorem C4_construction (α : Type) [Inhabited α] (cap : Nat) :
    (cap < 1 → mkQueue α cap = Except.error QueueError.InvalidCapacity) ∧
    (1 ≤ cap → ∃ q : Queue α, mkQueue α cap = Except.ok q ∧
      q.capacity = cap ∧ q.head = 0 ∧ q.tail = 0 ∧ q.slots.length = cap ∧
      ∀ i, i < cap → (q.slots.getD i default).sequence = i) := by
  constructor
  · intro h
    rw [mkQueue, if_pos h]
  · intro h
    refine ⟨{ capacity := cap
              slots := (List.range cap).map fun i => ⟨i, default⟩
              head := 0
              tail := 0 },
      by rw [mkQueue, if_neg (by omega)], rfl, rfl, rfl, by simp, ?_⟩
    intro i hi
    rw [fresh_getD cap i hi]

/-- Witness for C4 at capacities 0 and 3. -/
theorem C4_construction_witness :
    mkQueue Nat 0 = Except.error QueueError.InvalidCapacity ∧
    ∃ q : Queue Nat, mkQueue Nat 3 = Except.ok q ∧
      q.capacity = 3 ∧ q.head = 0 ∧ q.tail = 0 ∧ q.slots.length = 3 ∧
      ∀ i, i < 3 → (q.slots.getD i default).sequence = i :=
  ⟨(C4_construction Nat 0).1 (by decide), (C4_construction Nat 3).2 (by decide)⟩

/-- C8: when the capacity is a power of two, the bitmask fast path of
`buffer_at` selects the same slot as the modulo path for every candidate
position over the whole counter range. -/
theorem C8_mask_eq_mod (cap pos : Nat) (h : ∃ n, cap = 2 ^ n) :
    buffer_index cap pos = dynIndex cap pos := by
  obtain ⟨n, rfl⟩ := h
  rw [buffer_index, dynIndex]
  have hc : Nat.land (2 ^ n) (2 ^ n - 1) = 0 := by
    show 2 ^ n &&& (2 ^ n - 1) = 0
    rw [Nat.and_pow_two_sub_one_eq_mod]
    exact Nat.mod_self _
  rw [if_pos hc]
  show pos &&& (2 ^ n - 1) = pos % 2 ^ n
  exact Nat.and_pow_two_sub_one_eq_mod pos n

/-- Witness for C8 at capacity 8 and position 1000003. -/
theorem C8_mask_eq_mod_witness :
    (∃ n, 8 = 2 ^ n) ∧ buffer_index 8 1000003 = dynIndex 8 1000003 :=
  ⟨⟨3, rfl⟩, C8_mask_eq_mod 8 1000003 ⟨3, rfl⟩⟩

/-- C10: `thread_unsafe_clear` modifies only `head`, `tail` and the slot
sequences; every slot's value cell is left untouched (and the buffer length
and capacity are unchanged). -/
theorem C10_clear_frame [Inhabited α] (q : Queue α) :
    (thread_unsafe_clear q).capacity = q.capacity ∧
    (thread_unsafe_clear q).head = 0 ∧
    (thread_unsafe_clear q).tail = 0 ∧
    (thread_unsafe_clear q).slots.length = q.slots.length ∧
    ∀ i, ((thread_unsafe_clear q).slots.getD i default).value =
      (q.slots.getD i default).value := by
  refine ⟨rfl, rfl, rfl, ?_, ?_⟩
  · simp [thread_unsafe_clear, clearSlotsGo_length]
  · intro i
    simp only [thread_unsafe_clear]
    exact clearSlotsGo_getD_value q.capacity 0 i q.slots

/-- C9: after `thread_unsafe_clear` on any reachable state, the queue is in
its construction-time empty state: `head = tail = 0` and slot `i`'s sequence
equals `i` for every `i < capacity`. -/
theorem C9_reset_restores [Inhabited α] (q : Queue α) (h : Reachable q) :
    (thread_unsafe_clear q).head = 0 ∧ (thread_unsafe_clear q).tail = 0 ∧
    (thread_unsafe_clear q).capacity = q.capacity ∧
    (thread_unsafe_clear q).slots.length = q.capacity ∧
    ∀ i, i < q.capacity →
      ((thread_unsafe_clear q).slots.getD i default).sequence = i := by
  obtain ⟨hlen, hpos⟩ := wf_reachable q h
  refine ⟨rfl, rfl, rfl,
    by simp [thread_unsafe_clear, clearSlotsGo_length, hlen], ?_⟩
  intro i hi
  simp only [thread_unsafe_clear]
  simpa using clearSlotsGo_getD_sequence q.capacity 0 i q.slots (by omega) (by omega)

/-- Witness for C9 at a freshly constructed queue of capacity 2. -/
theorem C9_reset_restores_witness :
    (thread_unsafe_clear (Queue.mk 2 [Slot.mk 0 (0 : Nat), Slot.mk 1 0] 0 0)).head = 0 ∧
    (thread_unsafe_clear (Queue.mk 2 [Slot.mk 0 (0 : Nat), Slot.mk 1 0] 0 0)).tail = 0 ∧
    (thread_unsafe_clear (Queue.mk 2 [Slot.mk 0 (0 : Nat), Slot.mk 1 0] 0 0)).capacity =
      (Queue.mk 2 [Slot.mk 0 (0 : Nat), Slot.mk 1 0] 0 0).capacity ∧
    (thread_unsafe_clear (Queue.mk 2 [Slot.mk 0 (0 : Nat), Slot.mk 1 0] 0 0)).slots.length =
      (Queue.mk 2 [Slot.mk 0 (0 : Nat), Slot.mk 1 0] 0 0).capacity ∧
    ∀ i, i < (Queue.mk 2 [Slot.mk 0 (0 : Nat), Slot.mk 1 0] 0 0).capacity →
      ((thread_unsafe_clear (Queue.mk 2 [Slot.mk 0 (0 : Nat), Slot.mk 1 0] 0 0)).slots.getD
        i default).sequence = i :=
  C9_reset_restores _ (Reachable.init 2 _ rfl)

/-- C7: an enqueue call that returns failure (Full) and a dequeue call that
returns the empty indicator leave the entire queue state unchanged. -/
theorem C7_failure_no_effect [Inhabited α] (q : Queue α) :
    (∀ v fuel q', enqueue q v fuel = some (false, q') → q' = q) ∧
    (∀ fuel q', dequeue q fuel = some (none, q') → q' = q) := by
  constructor
  · intro v fuel q' h
    rcases enqueue_some q v fuel false q' h with ⟨hb, _, _⟩ | ⟨_, _, hq⟩
    · exact absurd hb (by simp)
    · exact hq
  · intro fuel q' h
    rcases dequeue_some q fuel none q' h with ⟨hr, _, _⟩ | ⟨_, _, hq⟩
    · exact absurd hr (by simp)
    · exact hq

/-- Witness for C7: a full capacity-2 queue rejects an enqueue without
change, and an empty capacity-2 queue rejects a dequeue without change. -/
theorem C7_failure_no_effect_witness :
    Queue.mk 2 [Slot.mk 1 (10 : Nat), Slot.mk 2 11] 0 2 =
      Queue.mk 2 [Slot.mk 1 (10 : Nat), Slot.mk 2 11] 0 2 ∧
    Queue.mk 2 [Slot.mk 0 (0 : Nat), Slot.mk 1 0] 0 0 =
      Queue.mk 2 [Slot.mk 0 (0 : Nat), Slot.mk 1 0] 0 0 :=
  ⟨(C7_failure_no_effect _).1 99 1 _ (by decide),
   (C7_failure_no_effect _).2 1 _ (by decide)⟩

/-- C6: in every reachable state and at every array position `i < capacity`,
slot `i`'s sequence equals `i + k·capacity` (free) or `i + k·capacity + 1`
(full) for some generation count `k ≥ 0`; every operation (enqueue, dequeue,
unsafe reset) preserves this shape. -/
theorem C6_sequence_generation [Inhabited α] (q : Queue α) (h : Reachable q) :
    ∀ i, i < q.capacity → ∃ k,
      (q.slots.getD i default).sequence = i + k * q.capacity ∨
      (q.slots.getD i default).sequence = i + k * q.capacity + 1 :=
  genInv_reachable q h

/-- Witness for C6 at slot 0 of the capacity-2 state reached by one enqueue. -/
theorem C6_sequence_generation_witness :
    ∃ k,
      ((Queue.mk 2 [Slot.mk 1 (5 : Nat), Slot.mk 1 0] 0 1).slots.getD 0 default).sequence =
        0 + k * (Queue.mk 2 [Slot.mk 1 (5 : Nat), Slot.mk 1 0] 0 1).capacity ∨
      ((Queue.mk 2 [Slot.mk 1 (5 : Nat), Slot.mk 1 0] 0 1).slots.getD 0 default).sequence =
        0 + k * (Queue.mk 2 [Slot.mk 1 (5 : Nat), Slot.mk 1 0] 0 1).capacity + 1 :=
  C6_sequence_generation _
    (Reachable.enq (Queue.mk 2 [Slot.mk 0 (0 : Nat), Slot.mk 1 0] 0 0) 5 1 true
      (Queue.mk 2 [Slot.mk 1 (5 : Nat), Slot.mk 1 0] 0 1)
      (Reachable.init 2 (Queue.mk 2 [Slot.mk 0 (0 : Nat), Slot.mk 1 0] 0 0) rfl)
      (by decide))
    0 (by decide)

/-- C1 (amended to capacities ≥ 2): in every reachable state the unsigned
difference `tail - head` lies in `[0, capacity]`, and when it equals the
capacity (C successful enqueues without a matching dequeue) the next enqueue
returns failure (Full) rather than advancing `tail`.  The original claim
ranged over all capacities ≥ 1; it fails at capacity 1, where the full-slot
sequence `pos + 1` coincides with the next position's free value. -/
theorem C1_occupancy_bound [Inhabited α] (q : Queue α) (h : Reachable q)
    (hcap : 2 ≤ q.capacity) :
    q.head ≤ q.tail ∧ q.tail - q.head ≤ q.capacity ∧
    (q.tail - q.head = q.capacity →
      ∀ v fuel b q', enqueue q v fuel = some (b, q') → b = false) := by
  obtain ⟨hlen, hc2, hht, htb, hseq⟩ := inv_reachable q h hcap
  refine ⟨hht, by omega, ?_⟩
  intro hfull v fuel b q' he
  rcases enqueue_some q v fuel b q' he with ⟨_, hs, _⟩ | ⟨hb, _, _⟩
  · exfalso
    have he2 : q.tail = q.head + q.capacity := by omega
    have hw := hseq q.head (Nat.le_refl _) (by omega)
    rw [if_pos (by omega)] at hw
    have hmod : q.tail % q.capacity = q.head % q.capacity := by
      rw [he2, Nat.add_mod_right]
    rw [hmod, hw] at hs
    omega
  · exact hb

/-- Witness for C1 at the full capacity-2 state reached by two enqueues. -/
theorem C1_occupancy_bound_witness :
    (Queue.mk 2 [Slot.mk 1 (10 : Nat), Slot.mk 2 11] 0 2).head ≤
      (Queue.mk 2 [Slot.mk 1 (10 : Nat), Slot.mk 2 11] 0 2).tail ∧
    (Queue.mk 2 [Slot.mk 1 (10 : Nat), Slot.mk 2 11] 0 2).tail -
      (Queue.mk 2 [Slot.mk 1 (10 : Nat), Slot.mk 2 11] 0 2).head ≤
      (Queue.mk 2 [Slot.mk 1 (10 : Nat), Slot.mk 2 11] 0 2).capacity ∧
    ((Queue.mk 2 [Slot.mk 1 (10 : Nat), Slot.mk 2 11] 0 2).tail -
      (Queue.mk 2 [Slot.mk 1 (10 : Nat), Slot.mk 2 11] 0 2).head =
      (Queue.mk 2 [Slot.mk 1 (10 : Nat), Slot.mk 2 11] 0 2).capacity →
      ∀ v fuel b q',
        enqueue (Queue.mk 2 [Slot.mk 1 (10 : Nat), Slot.mk 2 11] 0 2) v fuel =
          some (b, q') → b = false) :=
  C1_occupancy_bound _
    (Reachable.enq (Queue.mk 2 [Slot.mk 1 (10 : Nat), Slot.mk 1 0] 0 1) 11 1 true
      (Queue.mk 2 [Slot.mk 1 (10 : Nat), Slot.mk 2 11] 0 2)
      (Reachable.enq (Queue.mk 2 [Slot.mk 0 (0 : Nat), Slot.mk 1 0] 0 0) 10 1 true
        (Queue.mk 2 [Slot.mk 1 (10 : Nat), Slot.mk 1 0] 0 1)
        (Reachable.init 2 (Queue.mk 2 [Slot.mk 0 (0 : Nat), Slot.mk 1 0] 0 0) rfl)
        (by decide))
      (by decide))
    (by decide)

/-- C1 counterexample: with capacity 1, the state after `enqueue 5` then
`enqueue 6` (both of which the code accepts) is reachable, yet there
`tail - head = 2 > 1 = capacity`, and the enqueue performed after one
successful unmatched enqueue returned `true`, not Full. -/
theorem C1_counterexample :
    Reachable (Queue.mk 1 [Slot.mk 2 (6 : Nat)] 0 2) ∧
    (Queue.mk 1 [Slot.mk 2 (6 : Nat)] 0 2).tail -
      (Queue.mk 1 [Slot.mk 2 (6 : Nat)] 0 2).head = 2 ∧
    (Queue.mk 1 [Slot.mk 2 (6 : Nat)] 0 2).capacity = 1 ∧
    enqueue (Queue.mk 1 [Slot.mk 1 (5 : Nat)] 0 1) 6 1 =
      some (true, Queue.mk 1 [Slot.mk 2 (6 : Nat)] 0 2) := by
  refine ⟨?_, by decide, by decide, by decide⟩
  exact Reachable.enq (Queue.mk 1 [Slot.mk 1 (5 : Nat)] 0 1) 6 1 true
    (Queue.mk 1 [Slot.mk 2 (6 : Nat)] 0 2)
    (Reachable.enq (Queue.mk 1 [Slot.mk 0 (0 : Nat)] 0 0) 5 1 true
      (Queue.mk 1 [Slot.mk 1 (5 : Nat)] 0 1)
      (Reachable.init 1 (Queue.mk 1 [Slot.mk 0 (0 : Nat)] 0 0) rfl)
      (by decide))
    (by decide)

/-- C2: what the code actually does on the capacity-1 scenario.  The claim
(and spec scenario 1) expects `enqueue 5` → true, `enqueue 6` → false
(full), `dequeue` → 5, `dequeue` → empty.  Instead the second enqueue also
returns true — at capacity 1 the full-slot sequence `pos + 1` equals the
next candidate position, so the producer overwrites the unconsumed 5 — and
afterwards every dequeue finds sequence 2 against expected `head + 1 = 1`
(diff > 0) and retries forever, never returning, for any amount of fuel. -/
theorem C2_capacity_one_run :
    mkQueue Nat 1 = Except.ok (Queue.mk 1 [Slot.mk 0 0] 0 0) ∧
    enqueue (Queue.mk 1 [Slot.mk 0 (0 : Nat)] 0 0) 5 1 =
      some (true, Queue.mk 1 [Slot.mk 1 5] 0 1) ∧
    enqueue (Queue.mk 1 [Slot.mk 1 (5 : Nat)] 0 1) 6 1 =
      some (true, Queue.mk 1 [Slot.mk 2 6] 0 2) ∧
    ∀ fuel, dequeue (Queue.mk 1 [Slot.mk 2 (6 : Nat)] 0 2) fuel = none := by
  refine ⟨rfl, by decide, by decide, ?_⟩
  intro fuel
  induction fuel with
  | zero => rfl
  | succ n ih =>
    rw [dequeue] at ih ⊢
    rw [dequeueGo]
    simp only
    rw [if_neg (by decide), if_neg (by decide)]
    exact ih

/-- C5: the capacity-8 single-thread scenario: enqueueing 0,1,2,3,4 succeeds
for all five calls, five subsequent dequeues return 0,1,2,3,4 in exactly
that order, and `approx_size` afterwards returns 0. -/
theorem C5_capacity_eight_run :
    mkQueue Nat 8 = Except.ok (Queue.mk 8
      [Slot.mk 0 0, Slot.mk 1 0, Slot.mk 2 0, Slot.mk 3 0,
       Slot.mk 4 0, Slot.mk 5 0, Slot.mk 6 0, Slot.mk 7 0] 0 0) ∧
    enqueue (Queue.mk 8
      [Slot.mk 0 (0 : Nat), Slot.mk 1 0, Slot.mk 2 0, Slot.mk 3 0,
       Slot.mk 4 0, Slot.mk 5 0, Slot.mk 6 0, Slot.mk 7 0] 0 0) 0 1 =
      some (true, Queue.mk 8
        [Slot.mk 1 0, Slot.mk 1 0, Slot.mk 2 0, Slot.mk 3 0,
         Slot.mk 4 0, Slot.mk 5 0, Slot.mk 6 0, Slot.mk 7 0] 0 1) ∧
    enqueue (Queue.mk 8
      [Slot.mk 1 (0 : Nat), Slot.mk 1 0, Slot.mk 2 0, Slot.mk 3 0,
       Slot.mk 4 0, Slot.mk 5 0, Slot.mk 6 0, Slot.mk 7 0] 0 1) 1 1 =
      some (true, Queue.mk 8
        [Slot.mk 1 0, Slot.mk 2 1, Slot.mk 2 0, Slot.mk 3 0,
         Slot.mk 4 0, Slot.mk 5 0, Slot.mk 6 0, Slot.mk 7 0] 0 2) ∧
    enqueue (Queue.mk 8
      [Slot.mk 1 (0 : Nat), Slot.mk 2 1, Slot.mk 2 0, Slot.mk 3 0,
       Slot.mk 4 0, Slot.mk 5 0, Slot.mk 6 0, Slot.mk 7 0] 0 2) 2 1 =
      some (true, Queue.mk 8
        [Slot.mk 1 0, Slot.mk 2 1, Slot.mk 3 2, Slot.mk 3 0,
         Slot.mk 4 0, Slot.mk 5 0, Slot.mk 6 0, Slot.mk 7 0] 0 3) ∧
    enqueue (Queue.mk 8
      [Slot.mk 1 (0 : Nat), Slot.mk 2 1, Slot.mk 3 2, Slot.mk 3 0,
       Slot.mk 4 0, Slot.mk 5 0, Slot.mk 6 0, Slot.mk 7 0] 0 3) 3 1 =
      some (true, Queue.mk 8
        [Slot.mk 1 0, Slot.mk 2 1, Slot.mk 3 2, Slot.mk 4 3,
         Slot.mk 4 0, Slot.mk 5 0, Slot.mk 6 0, Slot.mk 7 0] 0 4) ∧
    enqueue (Queue.mk 8
      [Slot.mk 1 (0 : Nat), Slot.mk 2 1, Slot.mk 3 2, Slot.mk 4 3,
       Slot.mk 4 0, Slot.mk 5 0, Slot.mk 6 0, Slot.mk 7 0] 0 4) 4 1 =
      some (true, Queue.mk 8
        [Slot.mk 1 0, Slot.mk 2 1, Slot.mk 3 2, Slot.mk 4 3,
         Slot.mk 5 4, Slot.mk 5 0, Slot.mk 6 0, Slot.mk 7 0] 0 5) ∧
    dequeue (Queue.mk 8
      [Slot.mk 1 (0 : Nat), Slot.mk 2 1, Slot.mk 3 2, Slot.mk 4 3,
       Slot.mk 5 4, Slot.mk 5 0, Slot.mk 6 0, Slot.mk 7 0] 0 5) 1 =
      some (some 0, Queue.mk 8
        [Slot.mk 8 0, Slot.mk 2 1, Slot.mk 3 2, Slot.mk 4 3,
         Slot.mk 5 4, Slot.mk 5 0, Slot.mk 6 0, Slot.mk 7 0] 1 5) ∧
    dequeue (Queue.mk 8
      [Slot.mk 8 (0 : Nat), Slot.mk 2 1, Slot.mk 3 2, Slot.mk 4 3,
       Slot.mk 5 4, Slot.mk 5 0, Slot.mk 6 0, Slot.mk 7 0] 1 5) 1 =
      some (some 1, Queue.mk 8
        [Slot.mk 8 0, Slot.mk 9 1, Slot.mk 3 2, Slot.mk 4 3,
         Slot.mk 5 4, Slot.mk 5 0, Slot.mk 6 0, Slot.mk 7 0] 2 5) ∧
    dequeue (Queue.mk 8
      [Slot.mk 8 (0 : Nat), Slot.mk 9 1, Slot.mk 3 2, Slot.mk 4 3,
       Slot.mk 5 4, Slot.mk 5 0, Slot.mk 6 0, Slot.mk 7 0] 2 5) 1 =
      some (some 2, Queue.mk 8
        [Slot.mk 8 0, Slot.mk 9 1, Slot.mk 10 2, Slot.mk 4 3,
         Slot.mk 5 4, Slot.mk 5 0, Slot.mk 6 0, Slot.mk 7 0] 3 5) ∧
    dequeue (Queue.mk 8
      [Slot.mk 8 (0 : Nat), Slot.mk 9 1, Slot.mk 10 2, Slot.mk 4 3,
       Slot.mk 5 4, Slot.mk 5 0, Slot.mk 6 0, Slot.mk 7 0] 3 5) 1 =
      some (some 3, Queue.mk 8
        [Slot.mk 8 0, Slot.mk 9 1, Slot.mk 10 2, Slot.mk 11 3,
         Slot.mk 5 4, Slot.mk 5 0, Slot.mk 6 0, Slot.mk 7 0] 4 5) ∧
    dequeue (Queue.mk 8
      [Slot.mk 8 (0 : Nat), Slot.mk 9 1, Slot.mk 10 2, Slot.mk 11 3,
       Slot.mk 5 4, Slot.mk 5 0, Slot.mk 6 0, Slot.mk 7 0] 4 5) 1 =
      some (some 4, Queue.mk 8
        [Slot.mk 8 0, Slot.mk 9 1, Slot.mk 10 2, Slot.mk 11 3,
         Slot.mk 12 4, Slot.mk 5 0, Slot.mk 6 0, Slot.mk 7 0] 5 5) ∧
    approx_size (Queue.mk 8
      [Slot.mk 8 (0 : Nat), Slot.mk 9 1, Slot.mk 10 2, Slot.mk 11 3,
       Slot.mk 12 4, Slot.mk 5 0, Slot.mk 6 0, Slot.mk 7 0] 5 5) = 0 := by
  refine ⟨rfl, ?_, ?_, ?_, ?_, ?_, ?_, ?_, ?_, ?_, ?_, rfl⟩ <;> decide

end LockFreeKit
